import Mathlib

/-!
Shallow embedding of the rustnish caching reverse proxy (src/lib.rs and
src/cache.rs) and proofs about its cache policy, LRU store and response
pipeline.

Modelling conventions:
* `Instant` is modelled as a `Nat`; every operation that reads the clock in
  the source takes an explicit `now : Nat` parameter, and the several
  `Instant::now()` calls inside one operation are modelled as the same value
  (time is monotone and the calls are adjacent).
* Header values are raw byte lists (`List Nat`, each byte < 256); header
  names are the lowercase ASCII strings the `http` crate normalizes to.
* `HeaderMap` is modelled as an ordered list of (name, value) pairs, which
  preserves the multimap structure (duplicate lines and their order).
* `BTreeMap` is modelled as an association list with unique keys; since the
  keys are unique, removing a key equals filtering it out.
* Rust `panic!`/`expect` sites in cache.rs (pop of an empty recency queue,
  map lookup of a popped key failing) are modelled as leaving the state
  unchanged; the invariant theorems show those sites are unreachable from
  invariant-satisfying states.
-/

set_option maxHeartbeats 1000000

namespace Rustnish

/-! ## Bytes and strings -/

/-- `http::HeaderValue::to_str` succeeds iff every byte is visible ASCII
(32..=126) or horizontal tab (9). -/
def visibleAscii (b : Nat) : Bool := (32 ≤ b && b ≤ 126) || b == 9

/-- Model of `HeaderValue::to_str`: the byte list as characters, when all
bytes are visible ASCII. -/
def to_str (bytes : List Nat) : Option (List Char) :=
  if bytes.all visibleAscii then some (bytes.map Char.ofNat) else none

/-- The UTF-8 bytes of an ASCII string literal. -/
def strBytes (s : String) : List Nat := s.data.map Char.toNat

/-- Model of Rust `str::split(sep)`: splits on every occurrence of `sep`,
keeping empty fragments; always returns at least one fragment. -/
def splitOnChar (sep : Char) : List Char → List (List Char)
  | [] => [[]]
  | c :: rest =>
    let r := splitOnChar sep rest
    if c = sep then [] :: r
    else
      match r with
      | [] => [[c]]
      | t :: ts => (c :: t) :: ts

/-- Digits-only body of `u64::from_str`: at least one ASCII digit, value
must fit in 64 bits. -/
def parseU64Core (cs : List Char) : Option Nat :=
  if cs = [] then none
  else if cs.all Char.isDigit then
    let v := cs.foldl (fun a c => a * 10 + (c.toNat - 48)) 0
    if v < 2 ^ 64 then some v else none
  else none

/-- Model of Rust `str::parse::<u64>()`: optional leading '+', then digits. -/
def parseU64 : List Char → Option Nat
  | '+' :: rest => parseU64Core rest
  | cs => parseU64Core cs

/-! ## Headers, versions, messages -/

/-- One header line: lowercase ASCII name, raw value bytes. -/
abbrev HeaderLine := String × List Nat

/-- `HeaderMap::get_all(name)`: all values under `name`, in order. -/
def getAllHeaders (hs : List HeaderLine) (name : String) : List (List Nat) :=
  (hs.filter (fun h => h.1 == name)).map Prod.snd

/-- `HeaderMap::get(name)`: the first value under `name`. -/
def getHeader (hs : List HeaderLine) (name : String) : Option (List Nat) :=
  (hs.find? (fun h => h.1 == name)).map Prod.snd

/-- `HeaderMap::contains_key(name)`. -/
def containsHeader (hs : List HeaderLine) (name : String) : Bool :=
  hs.any (fun h => h.1 == name)

/-- `hyper::Version` as matched in `Proxy::call`. -/
inductive HttpVersion
  | http09
  | http10
  | http11
  | http2
  deriving DecidableEq, Repr

/-- A `hyper::Response` with a fully materialized body. -/
structure Response where
  status : Nat
  version : HttpVersion
  headers : List HeaderLine
  body : List Nat
  deriving DecidableEq, Repr

/-- A `hyper::Request` (only the parts `Cache::cache_key` reads). -/
structure Request where
  method : String
  uri : String
  headers : List HeaderLine
  deriving DecidableEq, Repr

/-! ## Cachability policy: `Cache::get_max_age` (src/lib.rs:245) -/

/-- One iteration of the token loop in `Cache::get_max_age`: the state is
the pair `(public, max_age)`.  A token exactly equal to `public` sets the
flag; a token that splits on '=' into exactly `["max-age", v]` overwrites
`max_age` with `v` parsed as u64 (0 on parse failure).  No trimming. -/
def processToken (st : Bool × Nat) (tok : List Char) : Bool × Nat :=
  if tok = "public".data then (true, st.2)
  else
    match splitOnChar '=' tok with
    | [a, b] => if a = "max-age".data then (st.1, (parseU64 b).getD 0) else st
    | _ => st

/-- `Cache::get_max_age`: fold the token state machine over every
`Cache-Control` header value that converts with `to_str`, splitting each
value on ','; return `Some(max_age)` iff `public && max_age > 0`. -/
def get_max_age (r : Response) : Option Nat :=
  let st := (getAllHeaders r.headers "cache-control").foldl
    (fun st v =>
      match to_str v with
      | none => st
      | some s => (splitOnChar ',' s).foldl processToken st)
    (false, 0)
  if st.1 && decide (0 < st.2) then some st.2 else none

/-! ## Session cookie regex `SESS[A-Za-z0-9_]+=` (src/lib.rs:177) -/

/-- The regex character class `[A-Za-z0-9_]`. -/
def isWordChar (c : Char) : Bool := c.isAlpha || c.isDigit || c == '_'

/-- After at least one word character has been consumed: accept a '=' or a
further word character. -/
def afterWord : List Char → Bool
  | [] => false
  | c :: rest => c == '=' || (isWordChar c && afterWord rest)

/-- Match `[A-Za-z0-9_]+=` at the start of the list. -/
def wordThenEq : List Char → Bool
  | [] => false
  | c :: rest => isWordChar c && afterWord rest

/-- Match `SESS[A-Za-z0-9_]+=` at the start of the list. -/
def sessAt : List Char → Bool
  | 'S' :: 'E' :: 'S' :: 'S' :: rest => wordThenEq rest
  | _ => false

/-- `Regex::is_match` for `SESS[A-Za-z0-9_]+=`: match at any position. -/
def sessMatch : List Char → Bool
  | [] => false
  | l@(_ :: rest) => sessAt l || sessMatch rest

/-- Declarative reading of the regex `SESS[A-Za-z0-9_]+=`, used to check the
executable matcher against the specification's wording. -/
def SessSpec (s : List Char) : Prop :=
  ∃ pre w post, s = pre ++ "SESS".data ++ w ++ '=' :: post ∧
    w ≠ [] ∧ ∀ c ∈ w, isWordChar c

/-! ## Cache key derivation: `Cache::cache_key` (src/lib.rs:169) -/

/-- `Cache::cache_key`: `None` unless the method is GET; `None` when the
first `Cookie` header value converts to a string matching the session
regex; otherwise the URI rendered as a string. -/
def cache_key (req : Request) : Option String :=
  if req.method ≠ "GET" then none
  else
    match getHeader req.headers "cookie" with
    | some v =>
      match to_str v with
      | some s => if sessMatch s then none else some req.uri
      | none => some req.uri
    | none => some req.uri

/-! ## UTF-8 decoding (specification side, for the wording of claim C4) -/

/-- A UTF-8 continuation byte. -/
def isCont (b : Nat) : Bool := 128 ≤ b && b < 192

/-- Standard UTF-8 decoding of a byte list (rejecting overlong encodings,
surrogates and out-of-range code points). -/
def utf8Decode : List Nat → Option (List Char)
  | [] => some []
  | b1 :: rest =>
    if b1 < 128 then
      (utf8Decode rest).map (fun cs => Char.ofNat b1 :: cs)
    else if 194 ≤ b1 && b1 < 224 then
      match rest with
      | b2 :: rest2 =>
        if isCont b2 then
          (utf8Decode rest2).map (fun cs => Char.ofNat ((b1 - 192) * 64 + (b2 - 128)) :: cs)
        else none
      | [] => none
    else if 224 ≤ b1 && b1 < 240 then
      match rest with
      | b2 :: b3 :: rest3 =>
        if isCont b2 && isCont b3 &&
            (b1 ≠ 224 || 160 ≤ b2) && (b1 ≠ 237 || b2 < 160) then
          (utf8Decode rest3).map
            (fun cs => Char.ofNat ((b1 - 224) * 4096 + (b2 - 128) * 64 + (b3 - 128)) :: cs)
        else none
      | _ => none
    else if 240 ≤ b1 && b1 < 245 then
      match rest with
      | b2 :: b3 :: b4 :: rest4 =>
        if isCont b2 && isCont b3 && isCont b4 &&
            (b1 ≠ 240 || 144 ≤ b2) && (b1 ≠ 244 || b2 < 144) then
          (utf8Decode rest4).map
            (fun cs => Char.ofNat
              ((b1 - 240) * 262144 + (b2 - 128) * 4096 + (b3 - 128) * 64 + (b4 - 128)) :: cs)
        else none
      | _ => none
    else none

/-! ## The LRU store (src/cache.rs) -/

/-- The anonymous tuple `(Value, Instant, usize)` stored per key in
`LruCache::map`: value, absolute expiry instant, memory size. -/
structure Entry (V : Type) where
  value : V
  expires : Nat
  size : Nat
  deriving DecidableEq, Repr

/-- `LruCache` state: key map, recency queue (front = least recently
used), memory budget, current usage. -/
structure LruCache (K V : Type) where
  map : List (K × Entry V)
  list : List K
  max_memory_size : Nat
  current_memory_size : Nat
  deriving DecidableEq, Repr

/-- The keys of an association list. -/
def keysOf {α β : Type} (m : List (α × β)) : List α := m.map Prod.fst

variable {K V : Type} [DecidableEq K]

/-- `BTreeMap::get`: the entry stored under `k`. -/
def lookupMap (m : List (K × Entry V)) (k : K) : Option (Entry V) :=
  (m.find? (fun p => p.1 = k)).map Prod.snd

/-- `BTreeMap::remove`: since keys are unique, removing the entry under `k`
is filtering it out. -/
def eraseKey (m : List (K × Entry V)) (k : K) : List (K × Entry V) :=
  m.filter (fun p => p.1 ≠ k)

/-- `BTreeMap::insert`: replace any entry under `k`, recording the new one. -/
def insertMap (m : List (K × Entry V)) (k : K) (e : Entry V) : List (K × Entry V) :=
  eraseKey m k ++ [(k, e)]

/-- `VecDeque::remove(position(k))`: drop the first occurrence of `k`. -/
def removeFirst (k : K) : List K → List K
  | [] => []
  | x :: xs => if x = k then xs else x :: removeFirst k xs

/-- `LruCache::with_memory_size`. -/
def LruCache.with_memory_size (memory_size : Nat) : LruCache K V :=
  { map := [], list := [], max_memory_size := memory_size, current_memory_size := 0 }

/-- `LruCache::remove` (src/cache.rs:180): drop `k` from the map and the
recency queue, reclaiming its bytes; return the removed value. -/
def LruCache.remove (c : LruCache K V) (k : K) : Option V × LruCache K V :=
  match lookupMap c.map k with
  | none => (none, c)
  | some e =>
    (some e.value,
      { c with
          map := eraseKey c.map k
          list := removeFirst k c.list
          current_memory_size := c.current_memory_size - e.size })

/-- `LruCache::remove_expired` (src/cache.rs:284): collect the keys whose
expiry is strictly before `now`, then remove each. -/
def LruCache.remove_expired (c : LruCache K V) (now : Nat) : LruCache K V :=
  let ks := keysOf (c.map.filter (fun p => p.2.expires < now))
  ks.foldl (fun c k => (c.remove k).2) c

/-- `LruCache::update_key` (src/cache.rs:274): move `k` (when present) to
the back of the recency queue. -/
def update_key (l : List K) (k : K) : List K :=
  if k ∈ l then removeFirst k l ++ [k] else l

/-- `LruCache::get` (src/cache.rs:205): sweep expired entries, then return
the entry under `k` (whatever its expiry now is), promoting its recency. -/
def LruCache.get (c : LruCache K V) (k : K) (now : Nat) : Option V × LruCache K V :=
  let c1 := c.remove_expired now
  match lookupMap c1.map k with
  | none => (none, c1)
  | some e => (some e.value, { c1 with list := update_key c1.list k })

/-- `LruCache::peek` (src/cache.rs:221): non-mutating lookup, returning the
entry only when `expires >= now` (note the inclusive gate in the source). -/
def LruCache.peek (c : LruCache K V) (k : K) (now : Nat) : Option V :=
  match lookupMap c.map k with
  | none => none
  | some e => if e.expires ≥ now then some e.value else none

/-- `LruCache::contains_key` (src/cache.rs:234). -/
def LruCache.contains_key (c : LruCache K V) (k : K) (now : Nat) : Bool :=
  (c.peek k now).isSome

/-- `LruCache::clear` (src/cache.rs:197). -/
def LruCache.clear (c : LruCache K V) : LruCache K V :=
  { c with map := [], list := [], current_memory_size := 0 }

/-- The eviction loop in `LruCache::insert` (src/cache.rs:160): while the
budget is exceeded, pop the front of the recency queue and remove that key,
reclaiming its bytes.  Returns the final map, queue and usage, plus the
list of evicted keys in eviction order.  The two `expect` panic sites of
the source (empty queue, popped key missing from the map) are modelled as
stopping with the state unchanged; the invariant proofs below show they
cannot be reached from invariant-satisfying states. -/
def evictLoop (maxm size : Nat) :
    List K → List (K × Entry V) → Nat → List (K × Entry V) × List K × Nat × List K
  | [], m, cur => (m, [], cur, [])
  | k :: rest, m, cur =>
    if maxm < cur + size then
      match lookupMap m k with
      | none => (m, k :: rest, cur, [])
      | some e =>
        let r := evictLoop maxm size rest (eraseKey m k) (cur - e.size)
        (r.1, r.2.1, r.2.2.1, k :: r.2.2.2)
    else (m, k :: rest, cur, [])

/-- `LruCache::insert` (src/cache.rs:148): sweep expired entries, remove
any previous entry under `key` (returning its value), and if the incoming
size fits the budget at all, evict from the front of the recency queue
until it fits, then insert at the back. -/
def LruCache.insert (c : LruCache K V) (k : K) (v : V) (memory_size expires now : Nat) :
    Option V × LruCache K V :=
  let c1 := c.remove_expired now
  let p := c1.remove k
  let c2 := p.2
  if memory_size ≤ c2.max_memory_size then
    let r := evictLoop c2.max_memory_size memory_size c2.list c2.map c2.current_memory_size
    (p.1,
      { c2 with
          map := insertMap r.1 k ⟨v, expires, memory_size⟩
          list := r.2.1 ++ [k]
          current_memory_size := r.2.2.1 + memory_size })
  else (p.1, c2)

/-- The keys evicted for budget pressure by a call to `LruCache::insert`
with the given key, size and clock (read off the same eviction loop). -/
def LruCache.insertVictims (c : LruCache K V) (k : K) (memory_size now : Nat) : List K :=
  let c1 := c.remove_expired now
  let c2 := (c1.remove k).2
  if memory_size ≤ c2.max_memory_size then
    (evictLoop c2.max_memory_size memory_size c2.list c2.map c2.current_memory_size).2.2.2
  else []

/-- The LRU state invariants of the specification: the usage is within
budget, the usage is the sum of the resident sizes, the recency queue and
the key map carry exactly the same key set, and neither has duplicates. -/
structure Inv (c : LruCache K V) : Prop where
  size_le : c.current_memory_size ≤ c.max_memory_size
  size_eq : c.current_memory_size = (c.map.map (fun p => p.2.size)).sum
  mem_iff : ∀ k : K, k ∈ c.list ↔ k ∈ keysOf c.map
  nodup_list : c.list.Nodup
  nodup_map : (keysOf c.map).Nodup

/-! ## The proxy-level cache (src/lib.rs:137-276) -/

/-- `CachedResponse`: the materialized form of an upstream response. -/
structure CachedResponse where
  status : Nat
  version : HttpVersion
  headers : List HeaderLine
  body : List Nat
  deriving DecidableEq, Repr

/-- `size_of_val(self)` for `CachedResponse`: a fixed layout constant; the
unit tests in src/lib.rs pin `get_memory_size` to 129 for a one-byte body
with no headers, fixing the constant at 128. -/
def structBaseSize : Nat := 128

/-- `MemorySizable::get_memory_size` for `CachedResponse` (src/lib.rs:146):
struct size plus header name/value bytes plus body capacity (the capacity
of a `Vec` built by `to_vec` equals its length). -/
def get_memory_size (e : CachedResponse) : Nat :=
  structBaseSize
    + (e.headers.map (fun h => h.1.length + h.2.length)).sum
    + e.body.length

/-- The inner LRU of the proxy `Cache`. -/
abbrev ProxyCache := LruCache String CachedResponse

namespace Cache

/-- `Cache::lookup` (src/lib.rs:187): on a key and a hit, rebuild a fresh
response carrying copies of the cached status, version, headers and body. -/
def lookup (cache : ProxyCache) (cache_key : Option String) (now : Nat) :
    Option Response × ProxyCache :=
  match cache_key with
  | none => (none, cache)
  | some key =>
    let r := cache.get key now
    match r.1 with
    | none => (none, r.2)
    | some entry =>
      (some { status := entry.status, version := entry.version,
              headers := entry.headers, body := entry.body }, r.2)

/-- `Cache::store` (src/lib.rs:209): with a key and a positive `max-age`,
materialize the response, insert it with expiry `now + max_age` and size
`get_memory_size`, and hand back a response rebuilt from the same parts.
(src/lib.rs passes the entry's `get_memory_size` as the insert size.) -/
def store (cache : ProxyCache) (cache_key : Option String) (resp : Response)
    (now : Nat) : Response × ProxyCache :=
  match cache_key with
  | none => (resp, cache)
  | some key =>
    match get_max_age resp with
    | none => (resp, cache)
    | some max_age =>
      let entry : CachedResponse :=
        { status := resp.status, version := resp.version,
          headers := resp.headers, body := resp.body }
      let cache' := (cache.insert key entry (get_memory_size entry) (now + max_age) now).2
      ({ status := resp.status, version := resp.version,
         headers := resp.headers, body := resp.body }, cache')

end Cache

/-! ## The upstream-result branch of `Proxy::call` (src/lib.rs:100-133) -/

/-- The version label computed in `Proxy::call`. -/
def versionLabel : HttpVersion → String
  | .http09 => "0.9"
  | .http10 => "1.0"
  | .http11 => "1.1"
  | .http2 => "2.0"

/-- The response decorator block of `Proxy::call` (src/lib.rs:102-118):
append one `Via: <label> rustnish-0.0.1` line, then insert
`Server: rustnish` only when no `Server` header is present. -/
def decorate (resp : Response) : Response :=
  let hs := resp.headers ++
    [("via", strBytes (versionLabel resp.version ++ " rustnish-0.0.1"))]
  let hs :=
    if containsHeader hs "server" then hs
    else hs ++ [("server", strBytes "rustnish")]
  { resp with headers := hs }

/-- The synthesized 502 of the `Err` branch (src/lib.rs:123-130).  A
`Response::builder()` starts from status 200, version HTTP/1.1 and no
headers; the builder sets only the status and the body. -/
def err502 : Response :=
  { status := 502, version := .http11, headers := [],
    body := strBytes "Something went wrong, please try again later." }

/-- The outcome of the upstream exchange: a response, or a transport
failure carrying the upstream error text. -/
inductive UpstreamResult
  | ok (resp : Response)
  | err (msg : String)

/-- The continuation `Proxy::call` runs on the upstream result: decorate
and store a successful response; synthesize the fixed 502 (and leave the
cache untouched) on a transport failure. -/
def handle_upstream_result (cache : ProxyCache) (cache_key : Option String)
    (now : Nat) : UpstreamResult → Response × ProxyCache
  | .ok resp => Cache.store cache cache_key (decorate resp) now
  | .err _ => (err502, cache)

/-! ## Helper lemmas: association lists and the recency queue -/

theorem removeFirst_of_not_mem {k : K} {l : List K} (h : k ∉ l) : removeFirst k l = l := by
  induction l with
  | nil => rfl
  | cons x xs ih =>
    simp only [List.mem_cons, not_or] at h
    simp [removeFirst, Ne.symm h.1, ih h.2]

theorem removeFirst_eq_filter {k : K} {l : List K} (h : l.Nodup) :
    removeFirst k l = l.filter (fun x => x ≠ k) := by
  induction l with
  | nil => rfl
  | cons x xs ih =>
    rcases List.nodup_cons.mp h with ⟨hx, hxs⟩
    by_cases hk : x = k
    · subst hk
      rw [removeFirst, if_pos rfl, List.filter_cons_of_neg (by simp)]
      exact (List.filter_eq_self.mpr (fun a ha => by
        simp only [decide_eq_true_eq]
        exact fun h => hx (h ▸ ha))).symm
    · simp [removeFirst, hk, List.filter_cons, ih hxs, Ne.symm, hk]

theorem keysOf_filter {α β : Type} (m : List (α × β)) (p : α → Bool) :
    keysOf (m.filter (fun q => p q.1)) = (keysOf m).filter p := by
  induction m with
  | nil => rfl
  | cons a m ih =>
    by_cases h : p a.1 <;> simp [keysOf, List.filter_cons, h] <;>
      simpa [keysOf] using ih

theorem mem_keysOf {α β : Type} {m : List (α × β)} {k : α} :
    k ∈ keysOf m ↔ ∃ b, (k, b) ∈ m := by
  simp only [keysOf, List.mem_map]
  constructor
  · rintro ⟨⟨a, b⟩, hm, rfl⟩
    exact ⟨b, hm⟩
  · rintro ⟨b, hm⟩
    exact ⟨(k, b), hm, rfl⟩

theorem lookupMap_cons_of_pos {a : K × Entry V} {m : List (K × Entry V)} {k : K}
    (h : a.1 = k) : lookupMap (a :: m) k = some a.2 := by
  rw [lookupMap, List.find?_cons_of_pos _ (by simp [h])]
  rfl

theorem lookupMap_cons_of_neg {a : K × Entry V} {m : List (K × Entry V)} {k : K}
    (h : a.1 ≠ k) : lookupMap (a :: m) k = lookupMap m k := by
  rw [lookupMap, List.find?_cons_of_neg _ (by simp [h])]
  rfl

theorem eraseKey_cons_pos {a : K × Entry V} {m : List (K × Entry V)} {x : K}
    (h : a.1 = x) : eraseKey (a :: m) x = eraseKey m x := by
  rw [eraseKey, List.filter_cons_of_neg (by simp [h])]
  rfl

theorem eraseKey_cons_neg {a : K × Entry V} {m : List (K × Entry V)} {x : K}
    (h : a.1 ≠ x) : eraseKey (a :: m) x = a :: eraseKey m x := by
  rw [eraseKey, List.filter_cons_of_pos (by simp [h])]
  rfl

theorem lookupMap_eq_none {m : List (K × Entry V)} {k : K} :
    lookupMap m k = none ↔ k ∉ keysOf m := by
  simp only [lookupMap, Option.map_eq_none', List.find?_eq_none, mem_keysOf]
  constructor
  · rintro h ⟨b, hb⟩
    exact h (k, b) hb (by simp)
  · rintro h ⟨a, b⟩ hm ha
    simp only [decide_eq_true_eq] at ha
    exact h ⟨b, ha ▸ hm⟩

theorem lookupMap_isSome {m : List (K × Entry V)} {k : K} :
    (lookupMap m k).isSome = true ↔ k ∈ keysOf m := by
  constructor
  · intro h
    by_contra hk
    rw [lookupMap_eq_none.mpr hk] at h
    simp at h
  · intro h
    cases hl : lookupMap m k with
    | none => exact absurd (lookupMap_eq_none.mp hl) (by simpa using h)
    | some e => simp

theorem lookupMap_mem {m : List (K × Entry V)} {k : K} {e : Entry V}
    (h : lookupMap m k = some e) : (k, e) ∈ m := by
  induction m with
  | nil => simp [lookupMap] at h
  | cons a m ih =>
    by_cases ha : a.1 = k
    · rw [lookupMap_cons_of_pos ha] at h
      obtain ⟨a1, a2⟩ := a
      simp only [Option.some.injEq] at h
      simp only at ha
      simp [← h, ← ha]
    · rw [lookupMap_cons_of_neg ha] at h
      exact List.mem_cons_of_mem _ (ih h)

theorem nodup_keys_inj {m : List (K × Entry V)} (hnd : (keysOf m).Nodup)
    {p q : K × Entry V} (hp : p ∈ m) (hq : q ∈ m) (hk : p.1 = q.1) : p = q := by
  induction m with
  | nil => cases hp
  | cons a m ih =>
    simp only [keysOf, List.map_cons, List.nodup_cons] at hnd
    rcases List.mem_cons.mp hp with rfl | hp' <;>
      rcases List.mem_cons.mp hq with rfl | hq'
    · rfl
    · exact absurd (hk ▸ (List.mem_map_of_mem Prod.fst hq')) hnd.1
    · exact absurd (hk ▸ (List.mem_map_of_mem Prod.fst hp')) hnd.1
    · exact ih hnd.2 hp' hq'

theorem lookupMap_of_mem {m : List (K × Entry V)} (hnd : (keysOf m).Nodup)
    {k : K} {e : Entry V} (h : (k, e) ∈ m) : lookupMap m k = some e := by
  induction m with
  | nil => cases h
  | cons a m ih =>
    simp only [keysOf, List.map_cons, List.nodup_cons] at hnd
    rcases List.mem_cons.mp h with h' | h'
    · rw [lookupMap_cons_of_pos (by rw [← h']), ← h']
    · have ha : a.1 ≠ k := by
        intro hk
        exact hnd.1 (hk ▸ List.mem_map_of_mem Prod.fst h')
      rw [lookupMap_cons_of_neg ha]
      exact ih hnd.2 h'

theorem lookupMap_eraseKey_self (m : List (K × Entry V)) (k : K) :
    lookupMap (eraseKey m k) k = none := by
  apply lookupMap_eq_none.mpr
  intro h
  rcases mem_keysOf.mp h with ⟨b, hb⟩
  have := (List.mem_filter.mp hb).2
  simp at this

theorem lookupMap_eraseKey_ne {m : List (K × Entry V)} {k x : K} (h : k ≠ x) :
    lookupMap (eraseKey m x) k = lookupMap m k := by
  induction m with
  | nil => rfl
  | cons a m ih =>
    by_cases ha : a.1 = x
    · have hak : a.1 ≠ k := by
        rw [ha]
        exact Ne.symm h
      rw [eraseKey_cons_pos ha, lookupMap_cons_of_neg hak]
      exact ih
    · rw [eraseKey_cons_neg ha]
      by_cases hak : a.1 = k
      · rw [lookupMap_cons_of_pos hak, lookupMap_cons_of_pos hak]
      · rw [lookupMap_cons_of_neg hak, lookupMap_cons_of_neg hak]
        exact ih

theorem eraseKey_of_not_mem {m : List (K × Entry V)} {k : K} (h : k ∉ keysOf m) :
    eraseKey m k = m := by
  apply List.filter_eq_self.mpr
  intro a ha
  simp only [decide_eq_true_eq]
  exact fun hk => h (hk ▸ List.mem_map_of_mem Prod.fst ha)

theorem sum_sizes_eraseKey {m : List (K × Entry V)} {k : K} {e : Entry V}
    (hnd : (keysOf m).Nodup) (h : lookupMap m k = some e) :
    ((eraseKey m k).map (fun p => p.2.size)).sum + e.size
      = (m.map (fun p => p.2.size)).sum := by
  induction m with
  | nil => simp [lookupMap] at h
  | cons a m ih =>
    simp only [keysOf, List.map_cons, List.nodup_cons] at hnd
    by_cases ha : a.1 = k
    · rw [lookupMap_cons_of_pos ha] at h
      simp only [Option.some.injEq] at h
      have hkm : k ∉ keysOf m := ha ▸ hnd.1
      rw [eraseKey_cons_pos ha, eraseKey_of_not_mem hkm, ← h]
      simp only [List.map_cons, List.sum_cons]
      omega
    · rw [lookupMap_cons_of_neg ha] at h
      rw [eraseKey_cons_neg ha]
      have := ih hnd.2 h
      simp only [List.map_cons, List.sum_cons]
      omega

theorem lookupMap_filter {m : List (K × Entry V)} (hnd : (keysOf m).Nodup)
    (p : K × Entry V → Bool) (k : K) :
    lookupMap (m.filter p) k = (lookupMap m k).filter (fun e => p (k, e)) := by
  induction m with
  | nil => rfl
  | cons a m ih =>
    simp only [keysOf, List.map_cons, List.nodup_cons] at hnd
    obtain ⟨a1, a2⟩ := a
    by_cases ha : a1 = k
    · subst ha
      have hnone : lookupMap (m.filter p) a1 = none := by
        apply lookupMap_eq_none.mpr
        intro hmem
        rcases mem_keysOf.mp hmem with ⟨b, hb⟩
        have hb' : (a1, b) ∈ m := (List.mem_filter.mp hb).1
        have h1 : a1 ∈ List.map Prod.fst m := List.mem_map_of_mem Prod.fst hb'
        exact hnd.1 h1
      by_cases hp : p (a1, a2)
      · rw [List.filter_cons_of_pos hp, lookupMap_cons_of_pos rfl,
          lookupMap_cons_of_pos rfl]
        simp [Option.filter, hp]
      · rw [List.filter_cons_of_neg hp, lookupMap_cons_of_pos rfl, hnone]
        simp [Option.filter, hp]
    · by_cases hp : p (a1, a2)
      · rw [List.filter_cons_of_pos hp, lookupMap_cons_of_neg ha,
          lookupMap_cons_of_neg ha]
        exact ih hnd.2
      · rw [List.filter_cons_of_neg hp, lookupMap_cons_of_neg ha]
        exact ih hnd.2

theorem lookupMap_append_right {m l : List (K × Entry V)} {k : K}
    (h : k ∉ keysOf m) : lookupMap (m ++ l) k = lookupMap l k := by
  have : m.find? (fun p => p.1 = k) = none := by
    apply List.find?_eq_none.mpr
    intro x hx
    simp only [decide_eq_true_eq]
    exact fun hk => h (hk ▸ List.mem_map_of_mem Prod.fst hx)
  simp [lookupMap, List.find?_append, this]

theorem lookupMap_insertMap_self (m : List (K × Entry V)) (k : K) (e : Entry V) :
    lookupMap (insertMap m k e) k = some e := by
  rw [insertMap, lookupMap_append_right]
  · simp [lookupMap]
  · intro h
    rcases mem_keysOf.mp h with ⟨b, hb⟩
    have := (List.mem_filter.mp hb).2
    simp at this

/-! ## Helper lemmas: `remove`, `remove_expired`, `update_key` -/

theorem keysOf_eraseKey (m : List (K × Entry V)) (k : K) :
    keysOf (eraseKey m k) = (keysOf m).filter (fun x => x ≠ k) :=
  keysOf_filter m (fun x => decide (x ≠ k))

theorem remove_fst (c : LruCache K V) (k : K) :
    (c.remove k).1 = (lookupMap c.map k).map (fun e => e.value) := by
  cases h : lookupMap c.map k <;> simp [LruCache.remove, h]

theorem remove_snd_max (c : LruCache K V) (k : K) :
    (c.remove k).2.max_memory_size = c.max_memory_size := by
  cases h : lookupMap c.map k <;> simp [LruCache.remove, h]

theorem remove_snd_map (c : LruCache K V) (k : K) :
    (c.remove k).2.map = eraseKey c.map k := by
  cases h : lookupMap c.map k with
  | none =>
    have hc : (c.remove k).2 = c := by simp [LruCache.remove, h]
    rw [hc]
    exact (eraseKey_of_not_mem (lookupMap_eq_none.mp h)).symm
  | some e => simp [LruCache.remove, h]

theorem remove_snd_list (c : LruCache K V) (k : K) (hInv : Inv c) :
    (c.remove k).2.list = removeFirst k c.list := by
  cases h : lookupMap c.map k with
  | none =>
    have hk : k ∉ c.list := fun hk => (lookupMap_eq_none.mp h) ((hInv.mem_iff k).mp hk)
    have hc : (c.remove k).2 = c := by simp [LruCache.remove, h]
    rw [hc]
    exact (removeFirst_of_not_mem hk).symm
  | some e => simp [LruCache.remove, h]

theorem inv_remove (c : LruCache K V) (k : K) (hInv : Inv c) : Inv (c.remove k).2 := by
  cases h : lookupMap c.map k with
  | none =>
    have : (c.remove k).2 = c := by simp [LruCache.remove, h]
    rw [this]
    exact hInv
  | some e =>
    have hsum := sum_sizes_eraseKey hInv.nodup_map h
    have hrm : (c.remove k).2 =
        { c with
            map := eraseKey c.map k
            list := removeFirst k c.list
            current_memory_size := c.current_memory_size - e.size } := by
      simp [LruCache.remove, h]
    rw [hrm]
    refine ⟨?_, ?_, ?_, ?_, ?_⟩
    · exact le_trans (Nat.sub_le _ _) hInv.size_le
    · have := hInv.size_eq
      simp only
      omega
    · intro x
      simp only [removeFirst_eq_filter hInv.nodup_list, keysOf_eraseKey,
        List.mem_filter, decide_eq_true_eq]
      exact and_congr_left (fun _ => hInv.mem_iff x)
    · simp only [removeFirst_eq_filter hInv.nodup_list]
      exact List.Nodup.filter _ hInv.nodup_list
    · simp only [keysOf_eraseKey]
      exact List.Nodup.filter _ hInv.nodup_map

theorem inv_foldl_remove (ks : List K) (c : LruCache K V) (hInv : Inv c) :
    Inv (ks.foldl (fun c k => (c.remove k).2) c) := by
  induction ks generalizing c with
  | nil => exact hInv
  | cons k ks ih => exact ih _ (inv_remove _ _ hInv)

theorem foldl_remove_max (ks : List K) (c : LruCache K V) :
    (ks.foldl (fun c k => (c.remove k).2) c).max_memory_size = c.max_memory_size := by
  induction ks generalizing c with
  | nil => rfl
  | cons k ks ih => rw [List.foldl_cons, ih, remove_snd_max]

theorem foldl_remove_map (ks : List K) (c : LruCache K V) (hInv : Inv c) :
    (ks.foldl (fun c k => (c.remove k).2) c).map
      = c.map.filter (fun p => decide (p.1 ∉ ks)) := by
  induction ks generalizing c with
  | nil =>
    rw [List.foldl_nil]
    exact (List.filter_eq_self.mpr (fun a _ => by simp)).symm
  | cons k ks ih =>
    rw [List.foldl_cons, ih _ (inv_remove _ _ hInv), remove_snd_map,
      eraseKey, List.filter_filter]
    apply List.filter_congr
    intro x _
    by_cases h1 : x.1 = k <;> by_cases h2 : x.1 ∈ ks <;> simp [h1, h2]

theorem foldl_remove_list (ks : List K) (c : LruCache K V) (hInv : Inv c) :
    (ks.foldl (fun c k => (c.remove k).2) c).list
      = c.list.filter (fun x => decide (x ∉ ks)) := by
  induction ks generalizing c with
  | nil =>
    rw [List.foldl_nil]
    exact (List.filter_eq_self.mpr (fun a _ => by simp)).symm
  | cons k ks ih =>
    rw [List.foldl_cons, ih _ (inv_remove _ _ hInv), remove_snd_list _ _ hInv,
      removeFirst_eq_filter hInv.nodup_list, List.filter_filter]
    apply List.filter_congr
    intro x _
    by_cases h1 : x = k <;> by_cases h2 : x ∈ ks <;> simp [h1, h2]

theorem inv_remove_expired (c : LruCache K V) (now : Nat) (hInv : Inv c) :
    Inv (c.remove_expired now) :=
  inv_foldl_remove _ _ hInv

theorem remove_expired_max (c : LruCache K V) (now : Nat) :
    (c.remove_expired now).max_memory_size = c.max_memory_size :=
  foldl_remove_max _ _

theorem mem_expired_keys {c : LruCache K V} {now : Nat} (hInv : Inv c)
    {p : K × Entry V} (hp : p ∈ c.map) :
    p.1 ∈ keysOf (c.map.filter (fun q => q.2.expires < now)) ↔ p.2.expires < now := by
  constructor
  · intro h
    rcases mem_keysOf.mp h with ⟨b, hb⟩
    rcases List.mem_filter.mp hb with ⟨hbm, hbe⟩
    have hpe : p = (p.1, b) := nodup_keys_inj hInv.nodup_map hp hbm rfl
    rw [hpe]
    simpa using hbe
  · intro h
    apply mem_keysOf.mpr
    refine ⟨p.2, List.mem_filter.mpr ⟨?_, by simp [h]⟩⟩
    cases p
    exact hp

theorem remove_expired_map (c : LruCache K V) (now : Nat) (hInv : Inv c) :
    (c.remove_expired now).map
      = c.map.filter (fun p => decide (now ≤ p.2.expires)) := by
  rw [LruCache.remove_expired, foldl_remove_map _ _ hInv]
  apply List.filter_congr
  intro p hp
  have h : p.1 ∈ keysOf (c.map.filter (fun q => q.2.expires < now))
      ↔ p.2.expires < now := mem_expired_keys hInv hp
  by_cases he : p.2.expires < now
  · simp [h.mpr he, Nat.not_le.mpr he]
  · have hnot : p.1 ∉ keysOf (c.map.filter (fun q => q.2.expires < now)) :=
      fun hmem => he (h.mp hmem)
    simp [hnot, Nat.not_lt.mp he]

theorem remove_expired_list (c : LruCache K V) (now : Nat) (hInv : Inv c) :
    (c.remove_expired now).list
      = c.list.filter
          (fun x => decide (x ∉ keysOf (c.map.filter (fun q => q.2.expires < now)))) := by
  rw [LruCache.remove_expired, foldl_remove_list _ _ hInv]

theorem remove_expired_of_fresh (c : LruCache K V) (now : Nat)
    (h : ∀ p ∈ c.map, now ≤ p.2.expires) : c.remove_expired now = c := by
  rw [LruCache.remove_expired]
  have hnil : c.map.filter (fun p => p.2.expires < now) = [] :=
    List.filter_eq_nil_iff.mpr (fun p hp => by simp [Nat.not_lt.mpr (h p hp)])
  simp [hnil, keysOf]

theorem lookupMap_remove_expired (c : LruCache K V) (now : Nat) (k : K) (hInv : Inv c) :
    lookupMap (c.remove_expired now).map k
      = (lookupMap c.map k).filter (fun e => decide (now ≤ e.expires)) := by
  rw [remove_expired_map _ _ hInv, lookupMap_filter hInv.nodup_map]

theorem mem_update_key {l : List K} {k x : K} (hnd : l.Nodup) :
    x ∈ update_key l k ↔ x ∈ l := by
  by_cases hk : k ∈ l
  · rw [update_key, if_pos hk, removeFirst_eq_filter hnd]
    simp only [List.mem_append, List.mem_filter, List.mem_singleton, decide_eq_true_eq]
    constructor
    · rintro (⟨h1, _⟩ | rfl)
      · exact h1
      · exact hk
    · intro hx
      by_cases hxk : x = k
      · exact Or.inr hxk
      · exact Or.inl ⟨hx, hxk⟩
  · rw [update_key, if_neg hk]

theorem nodup_update_key {l : List K} {k : K} (hnd : l.Nodup) :
    (update_key l k).Nodup := by
  by_cases hk : k ∈ l
  · rw [update_key, if_pos hk, removeFirst_eq_filter hnd]
    refine List.Nodup.append (List.Nodup.filter _ hnd) (List.nodup_singleton k) ?_
    intro x hx hx'
    rw [List.mem_singleton] at hx'
    subst hx'
    have := (List.mem_filter.mp hx).2
    simp at this
  · rw [update_key, if_neg hk]
    exact hnd

theorem update_key_getLast {l : List K} {k : K} (h : k ∈ l) :
    (update_key l k).getLast? = some k := by
  rw [update_key, if_pos h]
  exact List.getLast?_concat _

/-! ## Helper lemmas: the eviction loop and `insert`, `get`, `clear` -/

theorem evictLoop_spec (maxm size : Nat) (l : List K) (m : List (K × Entry V)) (cur : Nat)
    (hcur : cur = (m.map (fun p => p.2.size)).sum)
    (hmem : ∀ x, x ∈ l ↔ x ∈ keysOf m)
    (hndl : l.Nodup) (hndm : (keysOf m).Nodup)
    (hsize : size ≤ maxm) :
    (evictLoop maxm size l m cur).2.2.1
        = ((evictLoop maxm size l m cur).1.map (fun p => p.2.size)).sum ∧
    (∀ x, x ∈ (evictLoop maxm size l m cur).2.1
        ↔ x ∈ keysOf (evictLoop maxm size l m cur).1) ∧
    (evictLoop maxm size l m cur).2.1.Nodup ∧
    (keysOf (evictLoop maxm size l m cur).1).Nodup ∧
    (evictLoop maxm size l m cur).2.2.1 + size ≤ maxm ∧
    (evictLoop maxm size l m cur).2.1.IsSuffix l := by
  induction l generalizing m cur with
  | nil =>
    have hm : m = [] := by
      cases m with
      | nil => rfl
      | cons a m' => exact absurd ((hmem a.1).mpr (by simp [keysOf])) (by simp)
    subst hm
    simp only [evictLoop]
    simp only [List.map_nil, List.sum_nil] at hcur
    refine ⟨by simpa using hcur, by simp [keysOf], by simp, by simp [keysOf], by omega, by simp⟩
  | cons k rest ih =>
    by_cases hp : maxm < cur + size
    · have hkm : k ∈ keysOf m := (hmem k).mp (by simp)
      obtain ⟨e, he⟩ := Option.isSome_iff_exists.mp (lookupMap_isSome.mpr hkm)
      have hstep : evictLoop maxm size (k :: rest) m cur
          = ((evictLoop maxm size rest (eraseKey m k) (cur - e.size)).1,
             (evictLoop maxm size rest (eraseKey m k) (cur - e.size)).2.1,
             (evictLoop maxm size rest (eraseKey m k) (cur - e.size)).2.2.1,
             k :: (evictLoop maxm size rest (eraseKey m k) (cur - e.size)).2.2.2) := by
        simp [evictLoop, hp, he]
      rcases List.nodup_cons.mp hndl with ⟨hkr, hndr⟩
      have hsum := sum_sizes_eraseKey hndm he
      have hcur' : cur - e.size = ((eraseKey m k).map (fun p => p.2.size)).sum := by omega
      have hmem' : ∀ x, x ∈ rest ↔ x ∈ keysOf (eraseKey m k) := by
        intro x
        rw [keysOf_eraseKey, List.mem_filter]
        constructor
        · intro hx
          refine ⟨(hmem x).mp (by simp [hx]), ?_⟩
          simp only [decide_eq_true_eq]
          exact fun hxk => hkr (hxk ▸ hx)
        · rintro ⟨hx, hxk⟩
          simp only [decide_eq_true_eq] at hxk
          rcases List.mem_cons.mp ((hmem x).mpr hx) with rfl | hx'
          · exact absurd rfl hxk
          · exact hx'
      have hndm' : (keysOf (eraseKey m k)).Nodup := by
        rw [keysOf_eraseKey]
        exact List.Nodup.filter _ hndm
      obtain ⟨s1, s2, s3, s4, s5, s6⟩ := ih (eraseKey m k) (cur - e.size) hcur' hmem' hndr hndm'
      rw [hstep]
      exact ⟨s1, s2, s3, s4, s5, s6.trans (List.suffix_cons k rest)⟩
    · have hstep : evictLoop maxm size (k :: rest) m cur = (m, k :: rest, cur, []) := by
        simp [evictLoop, hp]
      rw [hstep]
      exact ⟨hcur, hmem, hndl, hndm, not_lt.mp hp, List.suffix_refl _⟩

theorem inv_clear (c : LruCache K V) : Inv c.clear := by
  refine ⟨Nat.zero_le _, by simp [LruCache.clear], ?_, by simp [LruCache.clear], ?_⟩
  · intro k
    simp [LruCache.clear, keysOf]
  · simp [LruCache.clear, keysOf]

theorem inv_insert (c : LruCache K V) (k : K) (v : V) (size expires now : Nat)
    (hInv : Inv c) : Inv (c.insert k v size expires now).2 := by
  have h2 : Inv ((c.remove_expired now).remove k).2 :=
    inv_remove _ _ (inv_remove_expired _ _ hInv)
  rw [LruCache.insert]
  by_cases hs : size ≤ ((c.remove_expired now).remove k).2.max_memory_size
  · simp only [hs, if_true]
    obtain ⟨s1, s2, s3, s4, s5, s6⟩ :=
      evictLoop_spec ((c.remove_expired now).remove k).2.max_memory_size size
        ((c.remove_expired now).remove k).2.list ((c.remove_expired now).remove k).2.map
        ((c.remove_expired now).remove k).2.current_memory_size
        h2.size_eq h2.mem_iff h2.nodup_list h2.nodup_map hs
    have hknotin : k ∉ keysOf ((c.remove_expired now).remove k).2.map := by
      rw [remove_snd_map]
      exact lookupMap_eq_none.mp (lookupMap_eraseKey_self _ _)
    have hknotin' :
        k ∉ keysOf (evictLoop ((c.remove_expired now).remove k).2.max_memory_size size
          ((c.remove_expired now).remove k).2.list ((c.remove_expired now).remove k).2.map
          ((c.remove_expired now).remove k).2.current_memory_size).1 := by
      intro hk
      apply hknotin
      exact ((h2.mem_iff k).mp (s6.subset ((s2 k).mpr hk)))
    have herase :
        insertMap (evictLoop ((c.remove_expired now).remove k).2.max_memory_size size
          ((c.remove_expired now).remove k).2.list ((c.remove_expired now).remove k).2.map
          ((c.remove_expired now).remove k).2.current_memory_size).1 k
          ⟨v, expires, size⟩
        = (evictLoop ((c.remove_expired now).remove k).2.max_memory_size size
          ((c.remove_expired now).remove k).2.list ((c.remove_expired now).remove k).2.map
          ((c.remove_expired now).remove k).2.current_memory_size).1 ++ [(k, ⟨v, expires, size⟩)] := by
      rw [insertMap, eraseKey_of_not_mem hknotin']
    refine ⟨?_, ?_, ?_, ?_, ?_⟩
    · simpa using s5
    · simp only [herase, List.map_append, List.sum_append]
      simpa using s1
    · intro x
      simp only [herase, keysOf, List.map_append, List.mem_append, List.mem_singleton]
      constructor
      · rintro (hx | rfl)
        · exact Or.inl ((s2 x).mp hx)
        · exact Or.inr (by simp)
      · rintro (hx | hx)
        · exact Or.inl ((s2 x).mpr hx)
        · simp only [List.map_cons, List.map_nil, List.mem_singleton] at hx
          exact Or.inr hx
    · simp only
      rw [List.nodup_append]
      refine ⟨s3, List.nodup_singleton _, ?_⟩
      intro x hx hx'
      rw [List.mem_singleton] at hx'
      subst hx'
      exact hknotin' ((s2 x).mp hx)
    · simp only [herase, keysOf, List.map_append, List.map_cons, List.map_nil]
      rw [List.nodup_append]
      refine ⟨s4, List.nodup_singleton _, ?_⟩
      intro x hx hx'
      rw [List.mem_singleton] at hx'
      subst hx'
      exact hknotin' hx
  · simp only [hs, if_false]
    exact h2

theorem insert_snd_max (c : LruCache K V) (k : K) (v : V) (size expires now : Nat) :
    (c.insert k v size expires now).2.max_memory_size = c.max_memory_size := by
  rw [LruCache.insert]
  by_cases hs : size ≤ ((c.remove_expired now).remove k).2.max_memory_size
  · simp only [hs, if_true]
    rw [remove_snd_max, remove_expired_max]
  · simp only [hs, if_false]
    rw [remove_snd_max, remove_expired_max]

theorem insert_fst (c : LruCache K V) (k : K) (v : V) (size expires now : Nat)
    (hInv : Inv c) :
    (c.insert k v size expires now).1
      = ((lookupMap c.map k).filter (fun e => decide (now ≤ e.expires))).map
          (fun e => e.value) := by
  rw [LruCache.insert]
  by_cases hs : size ≤ ((c.remove_expired now).remove k).2.max_memory_size <;>
    simp only [hs, if_true, if_false] <;>
    rw [remove_fst, lookupMap_remove_expired _ _ _ hInv]

theorem insert_lookup_self (c : LruCache K V) (k : K) (v : V) (size expires now : Nat)
    (hs : size ≤ c.max_memory_size) :
    lookupMap (c.insert k v size expires now).2.map k = some ⟨v, expires, size⟩ := by
  rw [LruCache.insert]
  have hs' : size ≤ ((c.remove_expired now).remove k).2.max_memory_size := by
    rw [remove_snd_max, remove_expired_max]
    exact hs
  simp only [hs', if_true]
  exact lookupMap_insertMap_self _ _ _

theorem get_fst (c : LruCache K V) (k : K) (now : Nat) (hInv : Inv c) :
    (c.get k now).1
      = ((lookupMap c.map k).filter (fun e => decide (now ≤ e.expires))).map
          (fun e => e.value) := by
  rw [LruCache.get, ← lookupMap_remove_expired _ _ _ hInv]
  cases h : lookupMap (c.remove_expired now).map k <;> simp [h]

theorem get_snd_map (c : LruCache K V) (k : K) (now : Nat) :
    (c.get k now).2.map = (c.remove_expired now).map := by
  rw [LruCache.get]
  cases h : lookupMap (c.remove_expired now).map k <;> simp [h]

theorem get_snd_max (c : LruCache K V) (k : K) (now : Nat) :
    (c.get k now).2.max_memory_size = c.max_memory_size := by
  rw [LruCache.get]
  cases h : lookupMap (c.remove_expired now).map k <;> simp [h, remove_expired_max]

theorem get_snd_list_of_some (c : LruCache K V) (k : K) (now : Nat)
    (h : (c.get k now).1.isSome = true) :
    (c.get k now).2.list = update_key (c.remove_expired now).list k := by
  rw [LruCache.get] at *
  cases hl : lookupMap (c.remove_expired now).map k with
  | none => rw [hl] at h; simp at h
  | some e => simp [hl]

theorem inv_get (c : LruCache K V) (k : K) (now : Nat) (hInv : Inv c) :
    Inv (c.get k now).2 := by
  have h1 : Inv (c.remove_expired now) := inv_remove_expired _ _ hInv
  rw [LruCache.get]
  cases hl : lookupMap (c.remove_expired now).map k with
  | none => simpa using h1
  | some e =>
    simp only
    refine ⟨h1.size_le, h1.size_eq, ?_, nodup_update_key h1.nodup_list, h1.nodup_map⟩
    intro x
    rw [mem_update_key h1.nodup_list]
    exact h1.mem_iff x

/-! ## Helper lemmas: the `Cache-Control` token state machine -/

/-- All tokens `get_max_age` visits, in visiting order: every convertible
`Cache-Control` value, split on ','. -/
def ccTokens (r : Response) : List (List Char) :=
  ((getAllHeaders r.headers "cache-control").filterMap to_str).flatMap (splitOnChar ',')

/-- A token the `max-age` arm of the loop fires on: splitting on '=' gives
exactly two parts and the first is `max-age`. -/
def isMaxAgeTok (tok : List Char) : Bool :=
  match splitOnChar '=' tok with
  | [a, _] => a = "max-age".data
  | _ => false

/-- The value the `max-age` arm writes for a token it fires on. -/
def maxAgeVal (tok : List Char) : Nat :=
  match splitOnChar '=' tok with
  | [_, b] => (parseU64 b).getD 0
  | _ => 0

/-- The final `max_age` register: the value of the last `max-age` token
visited, or 0 when none is. -/
def lastMaxAge (ts : List (List Char)) : Nat :=
  ((ts.filter isMaxAgeTok).getLast?).elim 0 maxAgeVal

theorem processToken_fst (st : Bool × Nat) (t : List Char) :
    (processToken st t).1 = (st.1 || decide (t = "public".data)) := by
  by_cases h : t = "public".data
  · simp [processToken, h]
  · rw [processToken, if_neg h]
    split
    · split <;> simp [h]
    · simp [h]

theorem processToken_snd_maxage (st : Bool × Nat) (t : List Char)
    (h : isMaxAgeTok t = true) : (processToken st t).2 = maxAgeVal t := by
  have hp : t ≠ "public".data := by
    intro he
    rw [isMaxAgeTok, he] at h
    simp [splitOnChar] at h
  rw [isMaxAgeTok] at h
  rw [processToken, if_neg hp, maxAgeVal]
  split at h
  · next a b heq =>
    simp only [decide_eq_true_eq] at h
    rw [if_pos (show a = "max-age".data by rw [h])]
  · simp at h

theorem processToken_snd_other (st : Bool × Nat) (t : List Char)
    (h : isMaxAgeTok t = false) : (processToken st t).2 = st.2 := by
  by_cases hp : t = "public".data
  · simp [processToken, hp]
  · rw [isMaxAgeTok] at h
    rw [processToken, if_neg hp]
    split at h
    · next a b heq =>
      simp only [decide_eq_false_iff_not] at h
      rw [if_neg (fun hh => h (hh.trans rfl))]
    · rfl

theorem foldl_processToken_fst (ts : List (List Char)) (st : Bool × Nat) :
    (ts.foldl processToken st).1 = (st.1 || decide ("public".data ∈ ts)) := by
  induction ts generalizing st with
  | nil => simp
  | cons t ts ih =>
    rw [List.foldl_cons, ih]
    rw [processToken_fst]
    by_cases h1 : t = "public".data <;> by_cases h2 : "public".data ∈ ts <;>
      simp [h1, h2, eq_comm]

theorem foldl_processToken_snd (ts : List (List Char)) (st : Bool × Nat) :
    (ts.foldl processToken st).2 = ((ts.filter isMaxAgeTok).getLast?).elim st.2 maxAgeVal := by
  induction ts using List.reverseRecOn generalizing st with
  | nil => simp
  | append_singleton ts t ih =>
    rw [List.foldl_append, List.foldl_cons, List.foldl_nil, List.filter_append]
    by_cases h : isMaxAgeTok t = true
    · rw [processToken_snd_maxage _ _ h]
      rw [List.filter_cons_of_pos h, List.filter_nil, List.getLast?_append]
      simp
    · rw [processToken_snd_other _ _ (by simpa using h)]
      rw [List.filter_cons_of_neg (by simpa using h), List.filter_nil,
        List.getLast?_append]
      simp [ih]

theorem fold_values_eq (vs : List (List Nat)) (st : Bool × Nat) :
    vs.foldl
      (fun st v =>
        match to_str v with
        | none => st
        | some s => (splitOnChar ',' s).foldl processToken st) st
      = ((vs.filterMap to_str).flatMap (splitOnChar ',')).foldl processToken st := by
  induction vs generalizing st with
  | nil => rfl
  | cons v vs ih =>
    rw [List.foldl_cons, List.filterMap_cons]
    cases h : to_str v with
    | none => simpa [h] using ih _
    | some s =>
      simp only [h, List.flatMap_cons, List.foldl_append]
      exact ih _

theorem get_max_age_eq (r : Response) :
    get_max_age r =
      if ("public".data ∈ ccTokens r) ∧ 0 < lastMaxAge (ccTokens r)
      then some (lastMaxAge (ccTokens r)) else none := by
  rw [get_max_age]
  simp only
  rw [fold_values_eq]
  have hfst := foldl_processToken_fst (ccTokens r) (false, 0)
  have hsnd := foldl_processToken_snd (ccTokens r) (false, 0)
  change (if ((List.foldl processToken (false, 0) (ccTokens r)).1 &&
      decide (0 < (List.foldl processToken (false, 0) (ccTokens r)).2)) = true
    then some (List.foldl processToken (false, 0) (ccTokens r)).2 else none) = _
  rw [hfst, hsnd,
    show (((ccTokens r).filter isMaxAgeTok).getLast?).elim ((false, 0) : Bool × Nat).2
      maxAgeVal = lastMaxAge (ccTokens r) from rfl]
  by_cases hp : "public".data ∈ ccTokens r <;>
    by_cases hz : 0 < lastMaxAge (ccTokens r) <;> simp [hp, hz]

theorem get_max_age_some_iff (r : Response) (a : Nat) :
    get_max_age r = some a ↔
      "public".data ∈ ccTokens r ∧ lastMaxAge (ccTokens r) = a ∧ 0 < a := by
  rw [get_max_age_eq]
  by_cases hp : "public".data ∈ ccTokens r <;>
    by_cases hz : 0 < lastMaxAge (ccTokens r)
  · rw [if_pos ⟨hp, hz⟩]
    simp only [Option.some.injEq]
    constructor
    · intro h
      exact ⟨hp, h, h ▸ hz⟩
    · rintro ⟨_, h, _⟩
      exact h
  · rw [if_neg (fun h => hz h.2)]
    constructor
    · intro h
      cases h
    · rintro ⟨_, h, h0⟩
      exact absurd (h ▸ h0) hz
  · rw [if_neg (fun h => hp h.1)]
    constructor
    · intro h
      cases h
    · rintro ⟨h, _, _⟩
      exact absurd h hp
  · rw [if_neg (fun h => hp h.1)]
    constructor
    · intro h
      cases h
    · rintro ⟨h, _, _⟩
      exact absurd h hp

/-! ## Helper lemmas: the session regex matcher vs. its declarative form -/

theorem afterWord_iff (l : List Char) :
    afterWord l = true ↔ ∃ w post, l = w ++ '=' :: post ∧ ∀ c ∈ w, isWordChar c := by
  induction l with
  | nil =>
    simp only [afterWord, Bool.false_eq_true, false_iff, not_exists]
    intro w post h
    exact absurd h.symm (by simp)
  | cons c rest ih =>
    simp only [afterWord, Bool.or_eq_true, Bool.and_eq_true, beq_iff_eq]
    constructor
    · rintro (rfl | ⟨hc, hrest⟩)
      · exact ⟨[], rest, rfl, by simp⟩
      · obtain ⟨w, post, heq, hw⟩ := ih.mp hrest
        refine ⟨c :: w, post, by rw [heq]; rfl, ?_⟩
        intro d hd
        rcases List.mem_cons.mp hd with rfl | hd'
        · exact hc
        · exact hw d hd'
    · rintro ⟨w, post, heq, hw⟩
      cases w with
      | nil =>
        simp only [List.nil_append, List.cons.injEq] at heq
        exact Or.inl heq.1
      | cons d w' =>
        simp only [List.cons_append, List.cons.injEq] at heq
        refine Or.inr ⟨heq.1 ▸ hw d (by simp), ih.mpr ⟨w', post, heq.2, ?_⟩⟩
        intro x hx
        exact hw x (List.mem_cons_of_mem _ hx)

theorem wordThenEq_iff (l : List Char) :
    wordThenEq l = true ↔
      ∃ w post, l = w ++ '=' :: post ∧ w ≠ [] ∧ ∀ c ∈ w, isWordChar c := by
  cases l with
  | nil =>
    simp only [wordThenEq, Bool.false_eq_true, false_iff, not_exists]
    intro w post h
    exact absurd h.1.symm (by simp)
  | cons c rest =>
    simp only [wordThenEq, Bool.and_eq_true]
    constructor
    · rintro ⟨hc, hrest⟩
      obtain ⟨w, post, heq, hw⟩ := (afterWord_iff rest).mp hrest
      refine ⟨c :: w, post, by rw [heq]; rfl, by simp, ?_⟩
      intro d hd
      rcases List.mem_cons.mp hd with rfl | hd'
      · exact hc
      · exact hw d hd'
    · rintro ⟨w, post, heq, hne, hw⟩
      cases w with
      | nil => exact absurd rfl hne
      | cons d w' =>
        simp only [List.cons_append, List.cons.injEq] at heq
        refine ⟨heq.1 ▸ hw d (by simp), (afterWord_iff rest).mpr ⟨w', post, heq.2, ?_⟩⟩
        intro x hx
        exact hw x (List.mem_cons_of_mem _ hx)

theorem sessAt_iff (l : List Char) :
    sessAt l = true ↔ ∃ rest, l = "SESS".data ++ rest ∧ wordThenEq rest = true := by
  constructor
  · intro h
    rw [sessAt.eq_def] at h
    split at h
    · next rest => exact ⟨rest, rfl, h⟩
    · simp at h
  · rintro ⟨rest, rfl, h⟩
    exact h

theorem sessMatch_iff (s : List Char) : sessMatch s = true ↔ SessSpec s := by
  induction s with
  | nil =>
    simp only [sessMatch, Bool.false_eq_true, false_iff]
    rintro ⟨pre, w, post, heq, -, -⟩
    have : ("SESS".data ++ w ++ '=' :: post : List Char) ≠ [] := by simp
    rcases List.append_eq_nil.mp heq.symm with ⟨-, h2⟩
    rw [List.append_assoc] at heq
    rcases List.append_eq_nil.mp heq.symm with ⟨-, h3⟩
    exact absurd h3 (by simp)
  | cons c rest ih =>
    simp only [sessMatch, Bool.or_eq_true]
    constructor
    · rintro (h | h)
      · obtain ⟨tail, heq, hword⟩ := (sessAt_iff _).mp h
        obtain ⟨w, post, heq2, hne, hw⟩ := (wordThenEq_iff tail).mp hword
        exact ⟨[], w, post, by rw [heq, heq2]; simp, hne, hw⟩
      · obtain ⟨pre, w, post, heq, hne, hw⟩ := ih.mp h
        exact ⟨c :: pre, w, post, by simp [heq], hne, hw⟩
    · rintro ⟨pre, w, post, heq, hne, hw⟩
      cases pre with
      | nil =>
        left
        apply (sessAt_iff _).mpr
        refine ⟨w ++ '=' :: post, by simpa using heq, ?_⟩
        exact (wordThenEq_iff _).mpr ⟨w, post, rfl, hne, hw⟩
      | cons p pre' =>
        right
        simp only [List.cons_append, List.cons.injEq] at heq
        exact ih.mpr ⟨pre', w, post, heq.2, hne, hw⟩

/-! ## Helper lemmas: cache key derivation -/

theorem cache_key_none_iff (req : Request) :
    cache_key req = none ↔
      req.method ≠ "GET" ∨
        ∃ v s, getHeader req.headers "cookie" = some v ∧ to_str v = some s ∧
          SessSpec s := by
  by_cases hm : req.method ≠ "GET"
  · rw [cache_key, if_pos hm]
    simp [hm]
  · rw [cache_key, if_neg hm]
    cases hc : getHeader req.headers "cookie" with
    | none =>
      simp only [hc]
      simp [hm]
    | some v =>
      simp only [hc]
      cases hs : to_str v with
      | none =>
        simp only [hs]
        constructor
        · intro h
          cases h
        · rintro (h | ⟨v', s', hv', hs', hspec⟩)
          · exact absurd h hm
          · rw [Option.some.injEq] at hv'
            rw [← hv', hs] at hs'
            cases hs'
      | some s =>
        simp only [hs]
        by_cases hmatch : sessMatch s = true
        · rw [if_pos hmatch]
          constructor
          · intro _
            exact Or.inr ⟨v, s, rfl, hs, (sessMatch_iff s).mp hmatch⟩
          · intro _
            rfl
        · rw [if_neg hmatch]
          constructor
          · intro h
            cases h
          · rintro (h | ⟨v', s', hv', hs', hspec⟩)
            · exact absurd h hm
            · rw [Option.some.injEq] at hv'
              rw [← hv', hs, Option.some.injEq] at hs'
              exact absurd ((sessMatch_iff s).mpr (hs' ▸ hspec)) hmatch

/-! ## Concrete inputs used by the claim theorems -/

/-- A response carrying `Cache-Control: public, max-age=60` — note the
space after the comma. -/
def respSpaceC1 : Response :=
  { status := 200, version := .http11,
    headers := [("cache-control", strBytes "public, max-age=60")], body := [] }

/-- A response carrying `Cache-Control: public,max-age=60` (no space),
the form the repository's own tests use. -/
def respNoSpaceC1 : Response :=
  { status := 200, version := .http11,
    headers := [("cache-control", strBytes "public,max-age=60")], body := [] }

/-- Claim C4 helper: every request either gets no cache key or exactly its
URI string. -/
theorem cache_key_is_none_or_uri (req : Request) :
    cache_key req = none ∨ cache_key req = some req.uri := by
  by_cases hm : req.method ≠ "GET"
  · exact Or.inl (by rw [cache_key, if_pos hm])
  · rw [cache_key, if_neg hm]
    cases hc : getHeader req.headers "cookie" with
    | none =>
      simp only [hc]
      exact Or.inr trivial
    | some v =>
      simp only [hc]
      cases hs : to_str v with
      | none =>
        simp only [hs]
        exact Or.inr trivial
      | some s =>
        simp only [hs]
        by_cases hmatch : sessMatch s = true
        · exact Or.inl (by rw [if_pos hmatch])
        · exact Or.inr (by rw [if_neg hmatch])

/-- A GET request whose Cookie value is the UTF-8 encoding of `SESSab=é`:
the bytes 195, 169 are outside visible ASCII, so `to_str` fails, while the
UTF-8 reading of the value does match the session regex. -/
def reqC4 : Request :=
  { method := "GET", uri := "/x",
    headers := [("cookie", strBytes "SESSab=" ++ [195, 169])] }

/-- A GET request whose Cookie value contains the byte 200, which is not
visible ASCII, next to a raw `SESSab=` byte pattern. -/
def reqC10 : Request :=
  { method := "GET", uri := "/private",
    headers := [("cookie", strBytes "SESSab=" ++ [200])] }

/-! ## Claim theorems -/

/-- Claim C1, counterexample: the code splits `Cache-Control` values on ','
but does NOT trim tokens, so the spec's example `Cache-Control:
public, max-age=60` (with a space after the comma) is NOT judged
cacheable: `get_max_age` returns `none`, not `Some 60`. -/
theorem c1_counterexample :
    get_max_age respSpaceC1 = none ∧ get_max_age respSpaceC1 ≠ some 60 := by
  refine ⟨by decide, by decide⟩

/-- Claim C1 (amended): the cachability policy splits each convertible
`Cache-Control` value on ',' WITHOUT trimming; it returns `Some ttl` iff
some untrimmed token is exactly `public` and the last token of the form
`max-age=<v>` parses (as u64, with parse failures read as 0) to `ttl > 0`;
in particular `Cache-Control: public,max-age=60` (no space) is judged
cacheable with a 60-second TTL while the spaced variant is not cached. -/
theorem c1_amended :
    (∀ (r : Response) (a : Nat),
        get_max_age r = some a ↔
          "public".data ∈ ccTokens r ∧ lastMaxAge (ccTokens r) = a ∧ 0 < a) ∧
    get_max_age respNoSpaceC1 = some 60 ∧
    get_max_age respSpaceC1 = none := by
  refine ⟨get_max_age_some_iff, by decide, by decide⟩

/-- Claim C3: on an upstream transport failure the proxy answers with the
fixed 502 response — status 502, body exactly `Something went wrong,
please try again later.` — the response does not depend on the upstream
error text, and the cache is left untouched (the 502 is never stored). -/
theorem c3_transport_failure :
    (∀ (cache : ProxyCache) (key : Option String) (now : Nat) (msg : String),
        handle_upstream_result cache key now (.err msg) = (err502, cache)) ∧
    err502.status = 502 ∧
    err502.body = strBytes "Something went wrong, please try again later." ∧
    (∀ (cache : ProxyCache) (key : Option String) (now : Nat) (msg msg' : String),
        handle_upstream_result cache key now (.err msg)
          = handle_upstream_result cache key now (.err msg')) := by
  exact ⟨fun _ _ _ _ => rfl, rfl, rfl, fun _ _ _ _ _ => rfl⟩

/-- Claim C4, counterexample: the claim reads the Cookie value "as a UTF-8
string", but the code uses `to_str`, which fails on any byte outside
visible ASCII.  For a GET request whose Cookie value is the UTF-8 encoding
of `SESSab=é` the UTF-8 reading matches the session regex — the claim
demands `None` — yet `cache_key` returns `Some "/x"`. -/
theorem c4_counterexample :
    cache_key reqC4 = some "/x" ∧
    reqC4.method = "GET" ∧
    getHeader reqC4.headers "cookie" = some (strBytes "SESSab=" ++ [195, 169]) ∧
    (∃ cs, utf8Decode (strBytes "SESSab=" ++ [195, 169]) = some cs ∧ SessSpec cs) := by
  refine ⟨by decide, rfl, by decide, ⟨"SESSab=é".data, by decide, ?_⟩⟩
  exact (sessMatch_iff _).mp (by decide)

/-- Claim C4 (amended): the cache key is `None` exactly when the method is
not GET, or the FIRST Cookie header value converts under `to_str` (all
bytes visible ASCII) to a string matching `SESS[A-Za-z0-9_]+=`; in every
other case it is `Some` of the request URI rendered as a string. -/
theorem c4_amended :
    (∀ req : Request,
        cache_key req = none ↔
          req.method ≠ "GET" ∨
            ∃ v s, getHeader req.headers "cookie" = some v ∧ to_str v = some s ∧
              SessSpec s) ∧
    (∀ req : Request, cache_key req = none ∨ cache_key req = some req.uri) :=
  ⟨cache_key_none_iff, cache_key_is_none_or_uri⟩

/-- Claim C10: a GET request whose first Cookie header value is not
convertible to a string (some byte outside visible ASCII) skips the
session-cookie bypass: the cache key is `Some` of the request URI even if
the raw bytes contain a `SESS...=` pattern. -/
theorem c10_nonascii_cookie (req : Request) (v : List Nat)
    (hm : req.method = "GET")
    (hv : getHeader req.headers "cookie" = some v)
    (hva : v.all visibleAscii = false) :
    cache_key req = some req.uri := by
  rw [cache_key, if_neg (by simp [hm])]
  simp only [hv]
  have hns : to_str v = none := by
    rw [to_str, if_neg (by simp [hva])]
  simp only [hns]

/-- Witness for C10 at a concrete request. -/
theorem c10_witness : cache_key reqC10 = some "/private" :=
  c10_nonascii_cookie reqC10 (strBytes "SESSab=" ++ [200]) rfl (by decide) (by decide)

/-- An LRU cache holding one entry whose expiry instant is exactly 5. -/
def cC2 : LruCache Nat Nat :=
  { map := [(1, ⟨42, 5, 1⟩)], list := [1],
    max_memory_size := 10, current_memory_size := 1 }

/-- Claim C2, counterexample: at `now` equal to the entry's `expires_at`
(both 5), `get`, `peek` and `contains_key` all still return the entry as
present — the source gates on `expires_at >= now` (and sweeps only
`expires_at < now`), not the strict `>` the claim states. -/
theorem c2_counterexample :
    lookupMap cC2.map 1 = some ⟨42, 5, 1⟩ ∧
    cC2.peek 1 5 = some 42 ∧
    (cC2.get 1 5).1 = some 42 ∧
    cC2.contains_key 1 5 = true := by
  refine ⟨by decide, by decide, by decide, by decide⟩

/-- Claim C2 (amended): `get`, `peek` and `contains_key` return an entry
as present exactly when it is resident with `expires_at ≥ now`; an entry
with `expires_at = now` is still served, and only entries with
`expires_at < now` are treated as expired. -/
theorem c2_amended (c : LruCache K V) (k : K) (now : Nat) (hInv : Inv c) :
    ((c.peek k now).isSome = true ↔
        ∃ e, lookupMap c.map k = some e ∧ now ≤ e.expires) ∧
    ((c.get k now).1.isSome = true ↔
        ∃ e, lookupMap c.map k = some e ∧ now ≤ e.expires) ∧
    c.contains_key k now = (c.peek k now).isSome := by
  refine ⟨?_, ?_, rfl⟩
  · rw [LruCache.peek]
    cases hl : lookupMap c.map k with
    | none => simp
    | some e =>
      by_cases he : e.expires ≥ now
      · simp [he]
      · simp [he]
  · rw [get_fst _ _ _ hInv]
    cases hl : lookupMap c.map k with
    | none => simp
    | some e =>
      by_cases he : now ≤ e.expires
      · simp [Option.filter, he]
      · simp [Option.filter, he]

/-- Witness for C2 at the concrete one-entry cache, at the tie instant. -/
theorem c2_witness : (cC2.peek 1 5).isSome = true :=
  ((c2_amended cC2 1 5
      ⟨by decide, by decide, fun k => Iff.rfl, by decide, by decide⟩).1).mpr
    ⟨⟨42, 5, 1⟩, by decide, by decide⟩

/-- The empty LRU cache over `Nat` keys with a 10-byte budget. -/
def cEmptyC5 : LruCache Nat Nat := LruCache.with_memory_size 10

/-- Claim C5: every LRU operation — `insert`, `get`, `remove`, `clear` and
the expiry sweep — preserves the state invariants (`used_bytes ≤
max_bytes`, `used_bytes = Σ` resident sizes, recency queue and key map
carry the same duplicate-free key set); in particular `used_bytes ≤
max_bytes` holds at the end of every `insert`. -/
theorem c5_invariants (c : LruCache K V) (k : K) (v : V) (size expires now : Nat)
    (hInv : Inv c) :
    Inv (c.insert k v size expires now).2 ∧
    Inv (c.get k now).2 ∧
    Inv (c.remove k).2 ∧
    Inv c.clear ∧
    Inv (c.remove_expired now) ∧
    (c.insert k v size expires now).2.current_memory_size ≤ c.max_memory_size := by
  refine ⟨inv_insert c k v size expires now hInv, inv_get c k now hInv,
    inv_remove c k hInv, inv_clear c, inv_remove_expired c now hInv, ?_⟩
  have h := (inv_insert c k v size expires now hInv).size_le
  rwa [insert_snd_max] at h

/-- Witness for C5 at the empty cache. -/
theorem c5_witness : Inv (cEmptyC5.insert 1 2 3 4 0).2 :=
  (c5_invariants cEmptyC5 1 2 3 4 0
      ⟨by decide, by decide, fun k => Iff.rfl, by decide, by decide⟩).1

/-- An LRU cache holding one already-expired entry (expiry 0) under key 1. -/
def cC6 : LruCache Nat Nat :=
  { map := [(1, ⟨7, 0, 1⟩)], list := [1],
    max_memory_size := 10, current_memory_size := 1 }

/-- Claim C6, counterexample: an oversize insert (size 11 > budget 10)
under a FRESH key still mutates the cache — `insert` first runs the expiry
sweep, which removes the expired entry under key 1 — whereas the claim
says the state is unchanged except for a pre-existing entry under the
inserted key. -/
theorem c6_counterexample :
    lookupMap cC6.map 2 = none ∧ (cC6.insert 2 9 11 100 5).2 ≠ cC6 := by
  refine ⟨by decide, by decide⟩

/-- Claim C6 (amended): an insert whose size exceeds the budget rejects
silently, except that `insert` still runs the expiry sweep first: the
resulting map is the old map minus entries expired at `now` and minus the
inserted key; the returned value is the prior value under `k` if `k` was
resident and unexpired (`None` otherwise); every other unexpired entry is
untouched; `k` is not inserted; the budget is unchanged. -/
theorem c6_amended (c : LruCache K V) (k : K) (v : V) (s expires now : Nat)
    (hInv : Inv c) (hs : c.max_memory_size < s) :
    (c.insert k v s expires now).2.map
        = (c.map.filter (fun p => decide (now ≤ p.2.expires))).filter
            (fun p => p.1 ≠ k) ∧
    (c.insert k v s expires now).1
        = ((lookupMap c.map k).filter (fun e => decide (now ≤ e.expires))).map
          (fun e => e.value) ∧
    lookupMap (c.insert k v s expires now).2.map k = none ∧
    (∀ (x : K) (e : Entry V), x ≠ k → lookupMap c.map x = some e →
        now ≤ e.expires →
        lookupMap (c.insert k v s expires now).2.map x = some e) ∧
    (c.insert k v s expires now).2.max_memory_size = c.max_memory_size := by
  have hInv1 : Inv (c.remove_expired now) := inv_remove_expired c now hInv
  have hsnot : ¬ s ≤ ((c.remove_expired now).remove k).2.max_memory_size := by
    rw [remove_snd_max, remove_expired_max]
    omega
  have hins : (c.insert k v s expires now)
      = (((c.remove_expired now).remove k).1, ((c.remove_expired now).remove k).2) := by
    rw [LruCache.insert]
    simp only [hsnot, if_false]
  have hmap : (c.insert k v s expires now).2.map
      = (c.map.filter (fun p => decide (now ≤ p.2.expires))).filter
          (fun p => p.1 ≠ k) := by
    rw [hins]
    simp only
    rw [remove_snd_map, ← remove_expired_map c now hInv]
    rfl
  refine ⟨hmap, ?_, ?_, ?_, ?_⟩
  · rw [hins]
    simp only
    rw [remove_fst, lookupMap_remove_expired c now k hInv]
  · rw [hmap, ← eraseKey,
      show (c.map.filter (fun p => decide (now ≤ p.2.expires)))
        = (c.remove_expired now).map from (remove_expired_map c now hInv).symm]
    exact lookupMap_eraseKey_self _ _
  · intro x e hx hlook hexp
    rw [hmap, ← eraseKey,
      show (c.map.filter (fun p => decide (now ≤ p.2.expires)))
        = (c.remove_expired now).map from (remove_expired_map c now hInv).symm,
      lookupMap_eraseKey_ne hx, lookupMap_remove_expired c now x hInv, hlook]
    simp [Option.filter, hexp]
  · rw [hins]
    simp only
    rw [remove_snd_max, remove_expired_max]

/-- Witness for C6: the oversize insert at the concrete one-entry cache
did not insert key 2. -/
theorem c6_witness : lookupMap (cC6.insert 2 9 11 100 5).2.map 2 = none :=
  (c6_amended cC6 2 9 11 100 5
      ⟨by decide, by decide, fun k => Iff.rfl, by decide, by decide⟩
      (by decide)).2.2.1

/-- The empty proxy cache with a 1000-byte budget. -/
def pcC8 : ProxyCache := LruCache.with_memory_size 1000

/-- Claim C8: materializing a cachable response (`store`) and rehydrating
it from the cache (`lookup`, at any instant up to the expiry) yields a
response with the same status, HTTP version, full header list (duplicate
lines and order included) and body bytes — the whole `Response` record is
equal — and the cached entry itself still holds the same materialized
value afterwards, so the rehydrated response is an independent copy. -/
theorem c8_roundtrip (cache : ProxyCache) (resp : Response) (key : String)
    (now a t : Nat) (hInv : Inv cache)
    (hage : get_max_age resp = some a)
    (hsize : get_memory_size
        { status := resp.status, version := resp.version,
          headers := resp.headers, body := resp.body } ≤ cache.max_memory_size)
    (ht : t ≤ now + a) :
    (Cache.store cache (some key) resp now).1 = resp ∧
    (Cache.lookup (Cache.store cache (some key) resp now).2 (some key) t).1
        = some resp ∧
    (∃ e, lookupMap
          (Cache.lookup (Cache.store cache (some key) resp now).2 (some key) t).2.map
          key = some e ∧
        e.value = { status := resp.status, version := resp.version,
                    headers := resp.headers, body := resp.body }) := by
  have hstore : Cache.store cache (some key) resp now
      = (resp,
          (cache.insert key
            { status := resp.status, version := resp.version,
              headers := resp.headers, body := resp.body }
            (get_memory_size
              { status := resp.status, version := resp.version,
                headers := resp.headers, body := resp.body })
            (now + a) now).2) := by
    rw [Cache.store]
    simp only [hage]
  have hInv' : Inv (cache.insert key
      { status := resp.status, version := resp.version,
        headers := resp.headers, body := resp.body }
      (get_memory_size
        { status := resp.status, version := resp.version,
          headers := resp.headers, body := resp.body })
      (now + a) now).2 :=
    inv_insert _ _ _ _ _ _ hInv
  have hlookup : lookupMap (cache.insert key
      { status := resp.status, version := resp.version,
        headers := resp.headers, body := resp.body }
      (get_memory_size
        { status := resp.status, version := resp.version,
          headers := resp.headers, body := resp.body })
      (now + a) now).2.map key
      = some ⟨{ status := resp.status, version := resp.version,
                headers := resp.headers, body := resp.body },
              now + a,
              get_memory_size
                { status := resp.status, version := resp.version,
                  headers := resp.headers, body := resp.body }⟩ :=
    insert_lookup_self cache key _ _ (now + a) now hsize
  have hget1 : ((cache.insert key
      { status := resp.status, version := resp.version,
        headers := resp.headers, body := resp.body }
      (get_memory_size
        { status := resp.status, version := resp.version,
          headers := resp.headers, body := resp.body })
      (now + a) now).2.get key t).1
      = some { status := resp.status, version := resp.version,
               headers := resp.headers, body := resp.body } := by
    rw [get_fst _ _ _ hInv', hlookup]
    simp [Option.filter, ht]
  refine ⟨by rw [hstore], ?_, ?_⟩
  · rw [hstore]
    simp only [Cache.lookup]
    simp only [hget1]
  · rw [hstore]
    simp only [Cache.lookup]
    simp only [hget1]
    simp only [get_snd_map,
      lookupMap_remove_expired _ t key hInv', hlookup]
    refine ⟨⟨{ status := resp.status, version := resp.version,
               headers := resp.headers, body := resp.body },
             now + a,
             get_memory_size
               { status := resp.status, version := resp.version,
                 headers := resp.headers, body := resp.body }⟩, ?_, rfl⟩
    simp [Option.filter, ht]

/-- Witness for C8: priming the empty proxy cache with the
`public,max-age=60` response at instant 5 and looking it up at instant 60
returns exactly the original response. -/
theorem c8_witness :
    (Cache.lookup (Cache.store pcC8 (some "/x") respNoSpaceC1 5).2 (some "/x") 60).1
      = some respNoSpaceC1 :=
  (c8_roundtrip pcC8 respNoSpaceC1 "/x" 5 60 60
      ⟨by decide, by decide, fun k => Iff.rfl, by decide, by decide⟩
      (by decide) (by decide) (by decide)).2.1

/-- The decorator's `Via` line for a given version. -/
def viaLine (ver : HttpVersion) : HeaderLine :=
  ("via", strBytes (versionLabel ver ++ " rustnish-0.0.1"))

theorem decorate_version (r : Response) : (decorate r).version = r.version := rfl

theorem filter_via_decorate (r : Response) :
    (decorate r).headers.filter (fun h => h.1 = "via")
      = r.headers.filter (fun h => h.1 = "via") ++ [viaLine r.version] := by
  have h1 : ([("via", strBytes (versionLabel r.version ++ " rustnish-0.0.1"))] :
      List HeaderLine).filter (fun h => h.1 = "via") = [viaLine r.version] := rfl
  have h2 : ([("server", strBytes "rustnish")] :
      List HeaderLine).filter (fun h => h.1 = "via") = [] := rfl
  rw [decorate]
  simp only
  by_cases hs : containsHeader
      (r.headers ++ [("via", strBytes (versionLabel r.version ++ " rustnish-0.0.1"))])
      "server" = true
  · rw [if_pos hs, List.filter_append, h1]
  · rw [if_neg hs, List.filter_append, List.filter_append, h1, h2, List.append_nil]

theorem filter_server_decorate (r : Response) :
    (decorate r).headers.filter (fun h => h.1 = "server")
      = if r.headers.filter (fun h => h.1 = "server") = []
        then [("server", strBytes "rustnish")]
        else r.headers.filter (fun h => h.1 = "server") := by
  have h3 : ([("via", strBytes (versionLabel r.version ++ " rustnish-0.0.1"))] :
      List HeaderLine).filter (fun h => h.1 = "server") = [] := rfl
  have hA : (r.headers ++ [("via", strBytes (versionLabel r.version
        ++ " rustnish-0.0.1"))]).filter (fun h => h.1 = "server")
      = r.headers.filter (fun h => h.1 = "server") := by
    rw [List.filter_append, h3, List.append_nil]
  have hcont : containsHeader
      (r.headers ++ [("via", strBytes (versionLabel r.version ++ " rustnish-0.0.1"))])
      "server"
      = containsHeader r.headers "server" := by
    rw [containsHeader, List.any_append]
    have : ([("via", strBytes (versionLabel r.version ++ " rustnish-0.0.1"))] :
        List HeaderLine).any (fun h => h.1 == "server") = false := rfl
    rw [this, Bool.or_false]
    rfl
  have hnilcontains : containsHeader r.headers "server" = false ↔
      r.headers.filter (fun h => h.1 = "server") = [] := by
    rw [containsHeader]
    rw [← Bool.not_eq_true, List.any_eq_true, List.filter_eq_nil_iff]
    constructor
    · intro h p hp
      simp only [decide_eq_true_eq]
      intro he
      exact h ⟨p, hp, by simp [he]⟩
    · rintro h ⟨p, hp, hpe⟩
      have := h p hp
      simp only [decide_eq_true_eq] at this
      exact this (by simpa using hpe)
  rw [decorate]
  simp only
  by_cases hc : containsHeader r.headers "server" = true
  · rw [if_pos (by rw [hcont]; exact hc), hA]
    rw [if_neg ?_]
    intro hnil
    rw [← hnilcontains] at hnil
    rw [hc] at hnil
    cases hnil
  · rw [if_neg (by rw [hcont]; exact hc)]
    rw [List.filter_append, hA, List.filter_cons_of_pos rfl, List.filter_nil]
    rw [if_pos (hnilcontains.mp (by simpa using hc))]
    rw [hnilcontains.mp (by simpa using hc), List.nil_append]

/-- A response that already carries a `Via` header line and two `Server`
header lines. -/
def respC9 : Response :=
  { status := 200, version := .http11,
    headers := [("via", strBytes "1.1 test"), ("server", strBytes "dummy"),
                ("server", strBytes "dummy2")],
    body := [] }

/-- A response with no headers at all. -/
def respC9b : Response :=
  { status := 200, version := .http11, headers := [], body := [] }

/-- Claim C9, counterexample: on a response that already carries a `Via`
line and two `Server` lines, decorating twice yields THREE `Via` lines and
the two `Server` lines stay — not the claim's "exactly two Via and exactly
one Server" for every upstream response. -/
theorem c9_counterexample :
    ((decorate (decorate respC9)).headers.filter (fun h => h.1 = "via")).length = 3 ∧
    ((decorate (decorate respC9)).headers.filter (fun h => h.1 = "server")).length
      = 2 := by
  refine ⟨by decide, by decide⟩

/-- Claim C9 (amended): on a response with no pre-existing `Via` header
and at most one `Server` header, decorating twice appends exactly two
`Via` lines, each `<version-label> rustnish-0.0.1`, and leaves exactly one
`Server` header: the first application inserts `Server: rustnish` only
when none was present and the second leaves the `Server` header untouched. -/
theorem c9_amended (r : Response)
    (hvia : r.headers.filter (fun h => h.1 = "via") = [])
    (hserv : (r.headers.filter (fun h => h.1 = "server")).length ≤ 1) :
    (decorate (decorate r)).headers.filter (fun h => h.1 = "via")
        = [viaLine r.version, viaLine r.version] ∧
    ((decorate (decorate r)).headers.filter (fun h => h.1 = "server")).length
        = 1 := by
  constructor
  · rw [filter_via_decorate, decorate_version, filter_via_decorate, hvia]
    rfl
  · rw [filter_server_decorate, filter_server_decorate]
    by_cases hA : r.headers.filter (fun h => h.1 = "server") = []
    · rw [if_pos hA]
      rw [if_neg (by decide)]
      rfl
    · rw [if_neg hA]
      rw [if_neg hA]
      have hpos : 0 < (r.headers.filter (fun h => h.1 = "server")).length :=
        List.length_pos.mpr hA
      exact Nat.le_antisymm hserv hpos

/-- Witness for C9 at a response with no headers: the two appended `Via`
lines are both `1.1 rustnish-0.0.1`. -/
theorem c9_witness :
    (decorate (decorate respC9b)).headers.filter (fun h => h.1 = "via")
      = [("via", strBytes "1.1 rustnish-0.0.1"),
         ("via", strBytes "1.1 rustnish-0.0.1")] :=
  (c9_amended respC9b (by decide) (by decide)).1

/-- A successful `get` found its key in the post-sweep recency queue. -/
theorem get_success_mem (c : LruCache K V) (k : K) (now : Nat) (hInv : Inv c)
    (h : (c.get k now).1.isSome = true) : k ∈ (c.remove_expired now).list := by
  rw [LruCache.get] at h
  cases hl : lookupMap (c.remove_expired now).map k with
  | none =>
    simp only [hl] at h
    simp at h
  | some e =>
    exact ((inv_remove_expired c now hInv).mem_iff k).mpr
      (lookupMap_isSome.mp (by rw [hl]; rfl))

/-- The eviction loop's victim list is empty or starts with the front of
the recency queue. -/
theorem evictLoop_victims_head (maxm size : Nat) (l : List K) (m : List (K × Entry V))
    (cur : Nat) :
    (evictLoop maxm size l m cur).2.2.2 = [] ∨
      ∃ h t, l = h :: t ∧ (evictLoop maxm size l m cur).2.2.2.head? = some h := by
  cases l with
  | nil => exact Or.inl rfl
  | cons h t =>
    by_cases hp : maxm < cur + size
    · cases he : lookupMap m h with
      | none =>
        left
        simp [evictLoop, hp, he]
      | some e =>
        right
        refine ⟨h, t, rfl, ?_⟩
        simp [evictLoop, hp, he]
    · left
      simp [evictLoop, hp]

/-- An LRU cache at its 2-byte budget with two 1-byte entries, key 1 least
recently used. -/
def cC7 : LruCache Nat Nat :=
  { map := [(1, ⟨10, 100, 1⟩), (2, ⟨20, 100, 1⟩)], list := [1, 2],
    max_memory_size := 2, current_memory_size := 2 }

/-- Claim C7: a successful `get k` moves `k` to the back of the recency
queue, and the first victim of the budget-pressure eviction inside the
next `insert` of a different key `k'` is not `k`, provided some other
entry (neither `k` nor `k'`) is still resident at the eviction point
(after the sweep and the removal of `k'` inside that `insert`). -/
theorem c7_recency (c : LruCache K V) (k : K) (v : V) (now : Nat)
    (c₁ : LruCache K V) (k' : K) (s' now' : Nat)
    (hInv : Inv c)
    (hget : c.get k now = (some v, c₁))
    (hk' : k' ≠ k)
    (hother : ∃ j, j ∈ ((c₁.remove_expired now').remove k').2.list ∧ j ≠ k) :
    c₁.list.getLast? = some k ∧
    (c₁.insertVictims k' s' now').head? ≠ some k := by
  have h2 : (c.get k now).2 = c₁ := congrArg Prod.snd hget
  have h1 : (c.get k now).1 = some v := congrArg Prod.fst hget
  have hInv1 : Inv c₁ := h2 ▸ inv_get c k now hInv
  have hsome : (c.get k now).1.isSome = true := by rw [h1]; rfl
  have hmem : k ∈ (c.remove_expired now).list := get_success_mem c k now hInv hsome
  have hlist1 : c₁.list = removeFirst k (c.remove_expired now).list ++ [k] := by
    rw [← h2, get_snd_list_of_some c k now hsome, update_key, if_pos hmem]
  refine ⟨by rw [hlist1]; exact List.getLast?_concat _, ?_⟩
  have hInv2 : Inv (c₁.remove_expired now') := inv_remove_expired _ _ hInv1
  have hknotL : k ∉ removeFirst k (c.remove_expired now).list := by
    rw [removeFirst_eq_filter (inv_remove_expired c now hInv).nodup_list]
    intro hk
    have := (List.mem_filter.mp hk).2
    simp at this
  have hl3 : ((c₁.remove_expired now').remove k').2.list
      = (c₁.list.filter
            (fun x => decide (x ∉ keysOf
              (c₁.map.filter (fun q => q.2.expires < now'))))).filter
          (fun x => decide (x ≠ k')) := by
    rw [remove_snd_list _ _ hInv2, removeFirst_eq_filter hInv2.nodup_list,
      remove_expired_list c₁ now' hInv1]
  have hsplit : ((c₁.remove_expired now').remove k').2.list
      = ((removeFirst k (c.remove_expired now).list).filter
            (fun x => decide (x ∉ keysOf
              (c₁.map.filter (fun q => q.2.expires < now'))))).filter
          (fun x => decide (x ≠ k'))
        ++ (([k].filter
            (fun x => decide (x ∉ keysOf
              (c₁.map.filter (fun q => q.2.expires < now'))))).filter
          (fun x => decide (x ≠ k'))) := by
    rw [hl3, hlist1, List.filter_append, List.filter_append]
  have hkL : k ∉ ((removeFirst k (c.remove_expired now).list).filter
        (fun x => decide (x ∉ keysOf
          (c₁.map.filter (fun q => q.2.expires < now'))))).filter
      (fun x => decide (x ≠ k')) := by
    intro hkk
    exact hknotL (List.mem_filter.mp (List.mem_filter.mp hkk).1).1
  have hfilterSing : ∀ pr : K → Bool, [k].filter pr = [] ∨ [k].filter pr = [k] := by
    intro pr
    by_cases hx : pr k = true
    · right
      rw [List.filter_cons_of_pos hx, List.filter_nil]
    · left
      rw [List.filter_cons_of_neg hx, List.filter_nil]
  rw [LruCache.insertVictims]
  by_cases hsz : s' ≤ ((c₁.remove_expired now').remove k').2.max_memory_size
  · rw [if_pos hsz]
    rcases evictLoop_victims_head ((c₁.remove_expired now').remove k').2.max_memory_size
        s' ((c₁.remove_expired now').remove k').2.list
        ((c₁.remove_expired now').remove k').2.map
        ((c₁.remove_expired now').remove k').2.current_memory_size with
      hnil | ⟨h, t, hltq, hhead⟩
    · rw [hnil]
      simp
    · rw [hhead]
      intro hcontra
      have hk : h = k := Option.some.inj hcontra
      rw [hk] at hltq
      obtain ⟨j, hj, hjk⟩ := hother
      have hsing2 : ∀ pr pr' : K → Bool,
          ([k].filter pr).filter pr' = [] ∨ ([k].filter pr).filter pr' = [k] := by
        intro pr pr'
        rcases hfilterSing pr with hh | hh
        · rw [hh]
          exact Or.inl rfl
        · rw [hh]
          exact hfilterSing pr'
      rcases hsing2 (fun x => decide (x ∉ keysOf
            (c₁.map.filter (fun q => q.2.expires < now'))))
          (fun x => decide (x ≠ k')) with hcase | hcase
      · rw [hcase, List.append_nil] at hsplit
        have hkmem : k ∈ ((c₁.remove_expired now').remove k').2.list := by
          rw [hltq]
          simp
        rw [hsplit] at hkmem
        exact hkL hkmem
      · rw [hcase] at hsplit
        cases hLf : ((removeFirst k (c.remove_expired now).list).filter
              (fun x => decide (x ∉ keysOf
                (c₁.map.filter (fun q => q.2.expires < now'))))).filter
            (fun x => decide (x ≠ k')) with
        | nil =>
          rw [hLf, List.nil_append] at hsplit
          rw [hsplit] at hj
          rw [List.mem_singleton] at hj
          exact hjk hj
        | cons x rest =>
          rw [hLf, List.cons_append] at hsplit
          rw [hltq] at hsplit
          have hx : k = x := by
            have := congrArg List.head? hsplit
            simpa using this
          apply hkL
          rw [hLf, ← hx]
          simp
  · rw [if_neg hsz]
    simp

/-- Witness for C7: after `get 1` at the full two-entry cache, the next
insert's first eviction victim is key 2, not key 1. -/
theorem c7_witness : (((cC7.get 1 0).2).insertVictims 3 1 0).head? ≠ some 1 :=
  (c7_recency cC7 1 10 0 (cC7.get 1 0).2 3 1 0
      ⟨by decide, by decide, fun k => Iff.rfl, by decide, by decide⟩
      (by decide) (by decide) ⟨2, by decide, by decide⟩).2

end Rustnish
